import Mathlib

set_option autoImplicit false

/-!
Shallow embedding of the drugo configuration manager (`config/manager.go`,
`config/error.go`) and the drugo service container (`drugo/container.go`).

The filesystem is external input: directory listings and file contents are
passed in explicitly.  Viper trees are modelled as association lists from
string keys to YAML values; Go map reads/writes become association-list
lookup and overwrite-or-append.  Handle identity (pointer equality of the
`*viper.Viper` values returned by `Manager.Get`) is modelled by an
allocation counter `nextId` stamped into each constructed handle.
-/

namespace Drugo

/-- A YAML value as viper materializes it: a scalar, a sequence, or a mapping. -/
inductive YVal where
  | scalar (s : String)
  | seq (items : List YVal)
  | map (entries : List (String × YVal))

/-- The merged configuration tree: top-level keys to values (viper's `AllSettings`). -/
abbrev Tree : Type := List (String × YVal)

/-- Association-list lookup, modelling a Go map read (`m[k]`). -/
def lookAssoc {α : Type} : List (String × α) → String → Option α
  | [], _ => none
  | (k', v) :: rest, k => if k' = k then some v else lookAssoc rest k

/-- Association-list store, modelling a Go map write / `viper.Set`
(overwrite when the key exists, append otherwise). -/
def setAssoc {α : Type} : List (String × α) → String → α → List (String × α)
  | [], k, v => [(k, v)]
  | (k', v') :: rest, k, v =>
      if k' = k then (k, v) :: rest else (k', v') :: setAssoc rest k v

/-- `viper.IsSet` on the top level of a tree. -/
def isSet (t : Tree) (k : String) : Bool :=
  (lookAssoc t k).isSome

/-- `viper.Sub` applied to a single value: a mapping yields its entries,
anything else yields `none` (viper returns a nil sub-viper). -/
def subVal : YVal → Option (List (String × YVal))
  | .map es => some es
  | _ => none

/-- ASCII case folding of one character (viper lowercases keys with
`strings.ToLower`; keys are conventionally ASCII). -/
def lowerChar (c : Char) : Char :=
  if 'A' ≤ c && c ≤ 'Z' then Char.ofNat (c.toNat + 32) else c

/-- `strings.ToLower` applied to a key. -/
def lowerKey (s : String) : String :=
  String.mk (s.data.map lowerChar)

/-- `strings.Split key "."` on the character list (like Go's `strings.Split`,
the empty string yields one empty segment). -/
def splitDots : List Char → List (List Char)
  | [] => [[]]
  | c :: cs =>
      if c = '.' then [] :: splitDots cs
      else
        match splitDots cs with
        | [] => [[c]]
        | seg :: rest => (c :: seg) :: rest

/-- The dot-delimited path of a key. -/
def pathSegs (s : String) : List String :=
  (splitDots s.data).map String.mk

/-- viper's `find` walk used by `Get`/`Sub`: follow the path segments through
nested mappings; a non-mapping met before the last segment resolves to nil. -/
def findPath (t : List (String × YVal)) : List String → Option YVal
  | [] => none
  | [k] => lookAssoc t k
  | k :: rest =>
      match lookAssoc t k with
      | some (.map es) => findPath es rest
      | _ => none

/-- `viper.Sub` on a tree: lowercase the key, split it on dots, resolve the
path through nested mappings (as `v.Get` does), and materialize the result
when it is a mapping. -/
def subTree (t : Tree) (k : String) : Option (List (String × YVal)) :=
  match findPath t (pathSegs (lowerKey k)) with
  | some v => subVal v
  | none => none

/-- `filepath.Ext`: the suffix starting at the final dot, `""` when there is no dot. -/
def fileExt (s : String) : String :=
  let cs := s.toList
  if cs.contains '.' then
    String.mk ('.' :: (cs.reverse.takeWhile (fun c => c ≠ '.')).reverse)
  else ""

/-- The extension test of `loadConfigs`: only `.yml` and `.yaml` are recognized. -/
def isYamlName (name : String) : Bool :=
  fileExt name = ".yml" || fileExt name = ".yaml"

/-- `filepath.Join dir name` (abstracted). -/
def joinPath (dir name : String) : String :=
  dir ++ "/" ++ name

/-- The outcome of `viper.ReadInConfig` on one file: a parse failure, or the
top-level mapping (`AllSettings`).  YAML mappings have unique keys, so a
parsed file's top-level keys are pairwise distinct; this is stated as a
hypothesis where proofs need it. -/
inductive FileContent where
  | parseFailure (msg : String)
  | parsed (entries : List (String × YVal))

/-- One entry of `os.ReadDir`: its name, whether it is a directory, and (for
files) what parsing it would yield. -/
structure DirEntry where
  name : String
  isDir : Bool
  content : FileContent

/-- The outcome of `os.ReadDir`. -/
inductive DirListing where
  | unreadable (msg : String)
  | entries (list : List DirEntry)

/-- The error kinds of `config/error.go`: the four sentinel errors, each
carrying the data the wrapping `fmt.Errorf` records. -/
inductive ConfigError where
  | notFound (name : String)
  | dirRead (dir : String) (msg : String)
  | fileRead (path : String) (msg : String)
  | duplicateKey (key : String) (path : String)
deriving DecidableEq, Repr

/-- `config.IsNotFound` (`errors.Is err ErrNotFound`). -/
def IsNotFound : ConfigError → Bool
  | .notFound _ => true
  | _ => false

/-- `config.IsDirRead` (`errors.Is err ErrDirRead`). -/
def IsDirRead : ConfigError → Bool
  | .dirRead _ _ => true
  | _ => false

/-- `config.IsFileRead` (`errors.Is err ErrFileRead`). -/
def IsFileRead : ConfigError → Bool
  | .fileRead _ _ => true
  | _ => false

/-- `config.IsDuplicateKey` (`errors.Is err ErrDuplicateKey`). -/
def IsDuplicateKey : ConfigError → Bool
  | .duplicateKey _ _ => true
  | _ => false

/-- The loop of `mergeFile` over `v.AllSettings()`: for each top-level key,
fail with `duplicateKey` when the accumulating root already has it, fail with
`fileRead` when the value cannot be materialized as a subtree, otherwise
`root.Set(name, sub.AllSettings())`. -/
def mergeEntries (path : String) : List (String × YVal) → Tree → Except ConfigError Tree
  | [], root => .ok root
  | (name, v) :: rest, root =>
      if isSet root name then
        .error (.duplicateKey name path)
      else
        match subVal v with
        | none => .error (.fileRead path (String.append "cannot read sub config " name))
        | some es => mergeEntries path rest (setAssoc root name (.map es))

/-- `mergeFile root path` on the given file content: a parse failure is a
`fileRead` error, otherwise every top-level key is merged. -/
def mergeFile (root : Tree) (path : String) (content : FileContent) : Except ConfigError Tree :=
  match content with
  | .parseFailure msg => .error (.fileRead path msg)
  | .parsed entries => mergeEntries path entries root

/-- The loop of `loadConfigs` over the directory entries: directories and
files without a recognized YAML extension are skipped, every other file is
merged into the accumulating root. -/
def loadEntries (dir : String) : List DirEntry → Tree → Except ConfigError Tree
  | [], root => .ok root
  | e :: rest, root =>
      if e.isDir then loadEntries dir rest root
      else if !isYamlName e.name then loadEntries dir rest root
      else
        match mergeFile root (joinPath dir e.name) e.content with
        | .error err => .error err
        | .ok root' => loadEntries dir rest root'

/-- `loadConfigs dir`: list the directory (failing with `dirRead` when it is
unreadable) and merge every YAML file into one root tree. -/
def loadConfigs (dir : String) (fs : DirListing) : Except ConfigError Tree :=
  match fs with
  | .unreadable msg => .error (.dirRead dir msg)
  | .entries es => loadEntries dir es ([] : Tree)

/-- A cached namespace handle (`*viper.Viper` returned by `Get`): its
allocation stamp models pointer identity, `data` is the namespace subtree. -/
structure Handle where
  id : Nat
  data : List (String × YVal)

/-- The `config.Manager` state.  `watcher`/`watcherDone` mirror the nilness
of the fsnotify watcher and the done channel, `stopOnceUsed` mirrors
`watcherStopOnce`, and `watcherClosed`/`doneClosed` record whether
`watcher.Close()` / `close(watcherDone)` have run. -/
structure Manager where
  root : Tree
  configs : List (String × Handle)
  configDir : String
  nextId : Nat
  watcher : Option Nat
  watcherDone : Bool
  stopOnceUsed : Bool
  watcherClosed : Bool
  doneClosed : Bool
  reloadCallbacks : List Nat

/-- `config.NewManager`: run `loadConfigs` and wrap the result. -/
def newManager (configDir : String) (fs : DirListing) : Except ConfigError Manager :=
  match loadConfigs configDir fs with
  | .error e => .error e
  | .ok root =>
      .ok { root := root, configs := [], configDir := configDir, nextId := 0,
            watcher := none, watcherDone := false, stopOnceUsed := false,
            watcherClosed := false, doneClosed := false, reloadCallbacks := [] }

/-- `Manager.Get`: cached handle when present; otherwise `root.Sub(name)`,
failing with `notFound` on a nil subtree and caching the new handle on
success. -/
def Manager.get (m : Manager) (name : String) : Manager × Except ConfigError Handle :=
  match lookAssoc m.configs name with
  | some h => (m, .ok h)
  | none =>
      match subTree m.root name with
      | none => (m, .error (.notFound name))
      | some data =>
          let h : Handle := { id := m.nextId, data := data }
          ({ m with configs := setAssoc m.configs name h, nextId := m.nextId + 1 }, .ok h)

/-- The outcome of a `Must…` call: a value, or a Go panic carrying the error. -/
inductive MustResult (α : Type) where
  | ok (a : α)
  | panicked (e : ConfigError)

/-- `Manager.MustGet`: `Get`, converting an error into a panic. -/
def Manager.mustGet (m : Manager) (name : String) : Manager × MustResult Handle :=
  match m.get name with
  | (m', .ok h) => (m', .ok h)
  | (m', .error e) => (m', .panicked e)

/-- Byte-lexicographic comparison of char lists: the string order
`sort.Strings` sorts by, written so it evaluates. -/
def lexLeb : List Char → List Char → Bool
  | [], _ => true
  | _ :: _, [] => false
  | c :: cs, d :: ds => if c < d then true else if d < c then false else lexLeb cs ds

/-- Lexicographic `≤` on strings, computably. -/
def strLeb (a b : String) : Bool := lexLeb a.data b.data

/-- The ordering relation `sortStrings` sorts by (shown to agree with `≤`
in `strLe_iff`). -/
abbrev strLe (a b : String) : Prop := strLeb a b = true

/-- `sort.Strings` (lexicographic). -/
def sortStrings (l : List String) : List String :=
  l.insertionSort strLe

/-- `Manager.List`: the keys of `root.AllSettings()`, sorted. -/
def Manager.list (m : Manager) : List String :=
  sortStrings (m.root.map Prod.fst)

/-- `Manager.Reset`: re-run `loadConfigs`; on failure return the error and
leave the state untouched, on success swap the root and clear the cache. -/
def Manager.reset (m : Manager) (fs : DirListing) : Manager × Option ConfigError :=
  match loadConfigs m.configDir fs with
  | .error e => (m, some e)
  | .ok root => ({ m with root := root, configs := [] }, none)

/-- `Manager.OnReload`: append a callback (identified by a ticket). -/
def Manager.onReload (m : Manager) (cb : Nat) : Manager :=
  { m with reloadCallbacks := m.reloadCallbacks ++ [cb] }

/-- What a reload callback does when invoked with the manager: the callbacks
it registers through `OnReload` during its own execution, and whether it
returns an error. -/
structure CbBehavior where
  regs : List Nat
  err : Bool

/-- Invoking one callback in `handleReload`'s loop: its registrations are
appended to the manager's callback list, the invocation is logged, and its
error result is discarded after logging. -/
def runCallback (env : Nat → CbBehavior) (acc : Manager × List Nat) (i : Nat) :
    Manager × List Nat :=
  ({ acc.1 with reloadCallbacks := acc.1.reloadCallbacks ++ (env i).regs },
   acc.2 ++ [i])

/-- `Manager.handleReload`: `Reset`; on failure log and stop, on success
snapshot the callback list under the lock and invoke each snapshotted
callback in order.  The second component is the invocation log. -/
def Manager.handleReload (m : Manager) (env : Nat → CbBehavior) (fs : DirListing) :
    Manager × List Nat :=
  match m.reset fs with
  | (m0, some _) => (m0, [])
  | (m1, none) =>
      let callbacks := m1.reloadCallbacks
      callbacks.foldl (runCallback env) (m1, [])

/-- `Manager.Watch`: a no-op success when a watcher is already attached;
otherwise create the fsnotify watcher (`newOk`), add the directory
(`addOk`), and on success record the watcher and the done channel.  The
boolean result is `true` exactly when `Watch` returns nil. -/
def Manager.watch (m : Manager) (fresh : Nat) (newOk addOk : Bool) :
    Manager × Bool :=
  if m.watcher.isSome then (m, true)
  else if newOk = false then (m, false)
  else if addOk = false then (m, false)
  else ({ m with watcher := some fresh, watcherDone := true }, true)

/-- `Manager.StopWatch`: guarded by `watcherStopOnce`; the first call closes
the watcher (when attached) and the done channel (when created), later calls
do nothing. -/
def Manager.stopWatch (m : Manager) : Manager :=
  if m.stopOnceUsed then m
  else
    let m1 := { m with stopOnceUsed := true }
    let m2 := if m1.watcher.isSome then { m1 with watcherClosed := true } else m1
    if m2.watcherDone then { m2 with doneClosed := true } else m2

/-- One call in a watch-lifecycle trace. -/
inductive WatchOp where
  | watchCall (fresh : Nat) (newOk addOk : Bool)
  | stopCall

/-- Execute one watch-lifecycle call. -/
def wstep (m : Manager) : WatchOp → Manager
  | .watchCall f a b => (m.watch f a b).1
  | .stopCall => m.stopWatch

/-- Execute a watch-lifecycle trace. -/
def runOps (m : Manager) : List WatchOp → Manager
  | [] => m
  | op :: rest => runOps (wstep m op) rest

/-- How many calls of a trace attach a filesystem observer (the `watcher`
field goes from nil to non-nil). -/
def attachCount (m : Manager) : List WatchOp → Nat
  | [] => 0
  | op :: rest =>
      let m' := wstep m op
      (if m.watcher.isNone && m'.watcher.isSome then 1 else 0) + attachCount m' rest

/-- Perform `Manager.get` for each name in turn, discarding the results. -/
def applyGets (m : Manager) : List String → Manager
  | [] => m
  | n :: rest => applyGets (m.get n).1 rest

/-- The `drugo.Container`: the `services` map and the `servicesIds`
registration-order list. -/
structure Container (α : Type) where
  services : List (String × α)
  servicesIds : List String

/-- `drugo.NewContainer`. -/
def newContainer {α : Type} : Container α :=
  { services := [], servicesIds := [] }

/-- `Container.Bind`: record the name at the end of `servicesIds` on first
binding, then store the instance in the map. -/
def Container.bind {α : Type} (c : Container α) (name : String) (svc : α) : Container α :=
  let ids :=
    if (lookAssoc c.services name).isSome then c.servicesIds
    else c.servicesIds ++ [name]
  { services := setAssoc c.services name svc, servicesIds := ids }

/-- `Container.Names`: the registration-order name list (returned as a copy). -/
def Container.names {α : Type} (c : Container α) : List String :=
  c.servicesIds

/-- `Container.Services`: the instances in registration order (a Go map read
of a missing key yields the zero value). -/
def Container.servicesList {α : Type} [Inhabited α] (c : Container α) : List α :=
  c.servicesIds.map (fun n => (lookAssoc c.services n).getD default)

/-- Perform `Container.Bind` for each pair in turn. -/
def applyBinds {α : Type} (c : Container α) : List (String × α) → Container α
  | [] => c
  | (n, s) :: rest => applyBinds (c.bind n s) rest

/-- First-occurrence deduplication continuing from an accumulator. -/
def firstOccsFrom (acc : List String) : List String → List String
  | [] => acc
  | x :: xs => firstOccsFrom (if x ∈ acc then acc else acc ++ [x]) xs

/-- The names of a bind sequence, first occurrence of each, in order. -/
def firstOccs (l : List String) : List String :=
  firstOccsFrom [] l

/-- The last value bound to `n` in a bind sequence, if any. -/
def lastBound {α : Type} (n : String) : List (String × α) → Option α
  | [] => none
  | (k, v) :: rest =>
      match lastBound n rest with
      | some w => some w
      | none => if k = n then some v else none

/-- The top-level entries a directory entry contributes to the merged tree
(empty for directories, names without a YAML extension, and parse failures). -/
def entriesOf (e : DirEntry) : List (String × YVal) :=
  if e.isDir || !isYamlName e.name then []
  else
    match e.content with
    | .parseFailure _ => []
    | .parsed l => l

/-- The top-level keys a directory entry declares. -/
def declKeys (e : DirEntry) : List String :=
  (entriesOf e).map Prod.fst

/-- All keys declared across a listing, in processing order. -/
def allDeclKeys (es : List DirEntry) : List String :=
  (es.map declKeys).join

/-- The merged contributions of a whole listing. -/
def joinEntriesOf (es : List DirEntry) : Tree :=
  (es.map entriesOf).join

/-- Well-formed parsed content: every top-level value materializes as a
subtree, and the top-level keys are pairwise distinct (YAML mappings have
unique keys). -/
def goodFileContent : FileContent → Bool
  | .parseFailure _ => false
  | .parsed l => l.all (fun p => (subVal p.2).isSome) && decide ((l.map Prod.fst).Nodup)

/-- A directory entry `loadEntries` merges cleanly: skipped, or well-formed. -/
def goodEntry (e : DirEntry) : Bool :=
  e.isDir || !isYamlName e.name || goodFileContent e.content

/-- A YAML file entry `mergeFile` must reject: a parse failure, or some
top-level value that cannot be materialized as a subtree. -/
def badYamlEntry (e : DirEntry) : Bool :=
  !e.isDir && isYamlName e.name &&
    (match e.content with
     | .parseFailure _ => true
     | .parsed l => l.any (fun p => !(subVal p.2).isSome))

/-- How many entries of a listing declare the key `k`. -/
def declareCount (es : List DirEntry) (k : String) : Nat :=
  (es.filter (fun e => decide (k ∈ declKeys e))).length

/-- The container invariant `Bind` maintains: the registration-order list has
no duplicates and lists exactly the keys of the services map. -/
def ContainerInv {α : Type} (c : Container α) : Prop :=
  c.servicesIds.Nodup ∧
  ∀ n, (lookAssoc c.services n).isSome = true ↔ n ∈ c.servicesIds

/-- Cache entries always mirror the current tree: every cached handle's data
is the subtree its name has in the current root.  Holds for every manager
reachable from `NewManager` by `Get`/`Reset` calls (the cache starts empty,
`Get` caches the subtree it just extracted, `Reset` clears the cache). -/
def CacheConsistent (m : Manager) : Prop :=
  ∀ n h, lookAssoc m.configs n = some h → subTree m.root n = some h.data

/-! ### Sample fixtures -/

/-- A directory with a single file declaring the namespaces `app` and `database`. -/
def fsA : DirListing :=
  .entries [
    { name := "app.yml", isDir := false,
      content := .parsed [("app", .map [("name", .scalar "drugo")]),
                          ("database", .map [("host", .scalar "localhost")])] }]

/-- The manager `NewManager "conf" fsA` constructs. -/
def mA : Manager :=
  { root := [("app", .map [("name", .scalar "drugo")]),
             ("database", .map [("host", .scalar "localhost")])],
    configs := [], configDir := "conf", nextId := 0,
    watcher := none, watcherDone := false, stopOnceUsed := false,
    watcherClosed := false, doneClosed := false, reloadCallbacks := [] }

/-- The handle `mA.get "app"` constructs. -/
def hApp : Handle := { id := 0, data := [("name", YVal.scalar "drugo")] }

/-- `mA` after `Get "app"`. -/
def mA1 : Manager := { mA with configs := [("app", hApp)], nextId := 1 }

/-- A reloaded directory: `app` now maps `name` to `v2`. -/
def fsB : DirListing :=
  .entries [
    { name := "app.yml", isDir := false,
      content := .parsed [("app", .map [("name", .scalar "v2")])] }]

/-- The tree `loadConfigs "conf" fsB` produces. -/
def tB : Tree := [("app", YVal.map [("name", YVal.scalar "v2")])]

/-- `mA` with two reload callbacks registered (tickets 0 and 1). -/
def mC : Manager := { mA with reloadCallbacks := [0, 1] }

/-- A callback environment: callback 0 registers callback 5 during its own
run and returns an error; callback 1 does nothing. -/
def envC : Nat → CbBehavior :=
  fun i => if i = 0 then { regs := [5], err := true } else { regs := [], err := false }

/-- `mA` while watching (observer 7 attached, done channel created). -/
def mW : Manager := { mA with watcher := some 7, watcherDone := true }

/-- A manager whose single namespace `ns` holds a nested mapping `inner`. -/
def mN : Manager :=
  { mA with root := [("ns", .map [("inner", .map [("x", .scalar "1")])])] }

/-- A file declaring the namespace `app`. -/
def eApp1 : DirEntry :=
  { name := "a.yml", isDir := false, content := .parsed [("app", .map [])] }

/-- A second, distinct file also declaring `app`. -/
def eApp2 : DirEntry :=
  { name := "b.yml", isDir := false,
    content := .parsed [("app", .map [("x", .scalar "1")])] }

/-- A file whose top-level value is a scalar (cannot be materialized). -/
def eBad : DirEntry :=
  { name := "c.yml", isDir := false, content := .parsed [("weird", .scalar "5")] }

/-- Two distinct files declaring the same top-level key. -/
def esDup : List DirEntry := [eApp1, eApp2]

/-- A file declaring the namespace `database`. -/
def eDb : DirEntry :=
  { name := "d.yml", isDir := false,
    content := .parsed [("database", .map [("host", .scalar "h")])] }

/-- Two files with disjoint top-level keys. -/
def esDisj : List DirEntry := [eApp1, eDb]

/-- A well-formed file followed by an unmaterializable one. -/
def esBad : List DirEntry := [eApp1, eBad]

/-! ### Association-list basics -/

theorem lookAssoc_nil {α : Type} (k : String) : lookAssoc ([] : List (String × α)) k = none := rfl

theorem lookAssoc_cons {α : Type} (k' : String) (v : α) (rest : List (String × α)) (k : String) :
    lookAssoc ((k', v) :: rest) k = if k' = k then some v else lookAssoc rest k := rfl

theorem lookAssoc_setAssoc {α : Type} (l : List (String × α)) (k q : String) (v : α) :
    lookAssoc (setAssoc l k v) q = if k = q then some v else lookAssoc l q := by
  induction l with
  | nil => simp [setAssoc, lookAssoc]
  | cons p rest ih =>
      obtain ⟨k', v'⟩ := p
      by_cases hk : k' = k
      · subst hk
        by_cases hq : k' = q <;> simp [setAssoc, lookAssoc, hq]
      · by_cases hq : k' = q
        · subst hq
          have hkq : ¬ k = k' := fun h => hk h.symm
          simp [setAssoc, hk, lookAssoc, hkq]
        · simp [setAssoc, hk, lookAssoc, hq, ih]

theorem setAssoc_of_lookAssoc_none {α : Type} (l : List (String × α)) (k : String) (v : α)
    (h : lookAssoc l k = none) : setAssoc l k v = l ++ [(k, v)] := by
  induction l with
  | nil => rfl
  | cons p rest ih =>
      obtain ⟨k', v'⟩ := p
      rw [lookAssoc_cons] at h
      by_cases hk : k' = k
      · rw [if_pos hk] at h
        exact absurd h (by simp)
      · rw [if_neg hk] at h
        simp only [setAssoc, if_neg hk, List.cons_append, List.cons.injEq, true_and]
        exact ih h

theorem lookAssoc_append {α : Type} (l1 l2 : List (String × α)) (k : String) :
    lookAssoc (l1 ++ l2) k = (lookAssoc l1 k).or (lookAssoc l2 k) := by
  induction l1 with
  | nil => simp [lookAssoc]
  | cons p rest ih =>
      obtain ⟨k', v'⟩ := p
      by_cases hk : k' = k
      · simp [lookAssoc, hk]
      · simp [lookAssoc, hk, ih]

theorem lookAssoc_isSome_iff {α : Type} (l : List (String × α)) (k : String) :
    (lookAssoc l k).isSome = true ↔ k ∈ l.map Prod.fst := by
  induction l with
  | nil => simp [lookAssoc]
  | cons p rest ih =>
      obtain ⟨k', v'⟩ := p
      by_cases hk : k' = k
      · simp [lookAssoc, hk]
      · simp [lookAssoc, hk, ih, Ne.symm hk]

theorem lookAssoc_eq_none_iff {α : Type} (l : List (String × α)) (k : String) :
    lookAssoc l k = none ↔ k ∉ l.map Prod.fst := by
  rw [← lookAssoc_isSome_iff]
  cases h : lookAssoc l k <;> simp [h]

theorem isSet_iff_mem_keys (t : Tree) (k : String) :
    isSet t k = true ↔ k ∈ t.map Prod.fst := by
  unfold isSet
  exact lookAssoc_isSome_iff t k

theorem isSet_append (t1 t2 : Tree) (k : String) :
    isSet (t1 ++ t2) k = (isSet t1 k || isSet t2 k) := by
  unfold isSet
  rw [lookAssoc_append]
  cases h : lookAssoc t1 k <;> simp [h]

theorem subVal_isSome_iff (v : YVal) :
    (subVal v).isSome = true ↔ ∃ es, v = .map es := by
  cases v <;> simp [subVal]

theorem mem_setAssoc {α : Type} (l : List (String × α)) (k : String) (v : α) (p : String × α)
    (hp : p ∈ setAssoc l k v) : p ∈ l ∨ p = (k, v) := by
  induction l with
  | nil =>
      simp only [setAssoc, List.mem_singleton] at hp
      right; exact hp
  | cons q rest ih =>
      obtain ⟨q1, q2⟩ := q
      by_cases hk : q1 = k
      · rw [setAssoc, if_pos hk] at hp
        rcases List.mem_cons.mp hp with h' | h'
        · right; exact h'
        · left; exact List.mem_cons_of_mem _ h'
      · rw [setAssoc, if_neg hk] at hp
        rcases List.mem_cons.mp hp with h' | h'
        · left; exact h' ▸ List.mem_cons_self _ _
        · rcases ih h' with h'' | h''
          · left; exact List.mem_cons_of_mem _ h''
          · right; exact h''

theorem lookAssoc_mem {α : Type} (l : List (String × α)) (k : String) (v : α)
    (hl : lookAssoc l k = some v) : (k, v) ∈ l := by
  induction l with
  | nil => exact Option.noConfusion hl
  | cons q rest ih =>
      obtain ⟨k', v'⟩ := q
      rw [lookAssoc_cons] at hl
      by_cases hk : k' = k
      · rw [if_pos hk] at hl
        cases hl
        exact hk ▸ List.mem_cons_self _ _
      · rw [if_neg hk] at hl
        exact List.mem_cons_of_mem _ (ih hl)

/-! ### The string order -/

theorem lexLeb_iff_not_lex (a b : List Char) :
    lexLeb a b = true ↔ ¬ List.Lex (· < ·) b a := by
  induction a generalizing b with
  | nil =>
      cases b with
      | nil => exact iff_of_true rfl (fun h => by cases h)
      | cons d ds => exact iff_of_true rfl (fun h => by cases h)
  | cons c cs ih =>
      cases b with
      | nil => exact iff_of_false (by simp [lexLeb]) (not_not_intro List.Lex.nil)
      | cons d ds =>
          rcases lt_trichotomy c d with h | h | h
          · refine iff_of_true (by simp [lexLeb, h]) ?_
            intro hlex
            cases hlex with
            | rel h' => exact absurd h (lt_asymm h')
            | cons h' => exact lt_irrefl _ h
          · subst h
            simp only [lexLeb]
            rw [if_neg (lt_irrefl c), if_neg (lt_irrefl c), ih ds]
            constructor
            · intro hn hlex
              cases hlex with
              | rel h' => exact lt_irrefl _ h'
              | cons h' => exact hn h'
            · intro hn hlex
              exact hn (List.Lex.cons hlex)
          · exact iff_of_false (by simp [lexLeb, lt_asymm h, h])
              (not_not_intro (List.Lex.rel h))

theorem strLe_iff (a b : String) : strLe a b ↔ a ≤ b := by
  rw [String.le_iff_toList_le, ← not_lt]
  exact lexLeb_iff_not_lex a.data b.data

theorem strLe_total (a b : String) : strLe a b ∨ strLe b a :=
  (le_total a b).imp (strLe_iff a b).mpr (strLe_iff b a).mpr

theorem strLe_trans (a b c : String) (hab : strLe a b) (hbc : strLe b c) : strLe a c :=
  (strLe_iff a c).mpr (le_trans ((strLe_iff a b).mp hab) ((strLe_iff b c).mp hbc))

theorem sortStrings_sorted (l : List String) : List.Sorted (· ≤ ·) (sortStrings l) := by
  have hs : List.Sorted strLe (List.insertionSort strLe l) :=
    @List.sorted_insertionSort String strLe (fun a b => inferInstance)
      ⟨strLe_total⟩ ⟨strLe_trans⟩ l
  exact hs.imp (fun h => (strLe_iff _ _).mp h)

theorem sortStrings_perm (l : List String) : (sortStrings l).Perm l :=
  List.perm_insertionSort strLe l

/-! ### `Manager.Get` cache behaviour -/

theorem get_hit (m : Manager) (name : String) (h : Handle)
    (hl : lookAssoc m.configs name = some h) :
    m.get name = (m, Except.ok h) := by
  simp [Manager.get, hl]

theorem get_ok_cached (m m' : Manager) (name : String) (h : Handle)
    (hget : m.get name = (m', Except.ok h)) :
    lookAssoc m'.configs name = some h := by
  unfold Manager.get at hget
  cases hl : lookAssoc m.configs name with
  | some h0 =>
      rw [hl] at hget
      obtain ⟨hm, hh⟩ := Prod.mk.injEq .. ▸ hget
      cases hh
      exact hm ▸ hl
  | none =>
      rw [hl] at hget
      cases hs : subTree m.root name with
      | none => rw [hs] at hget; simp at hget
      | some data =>
          rw [hs] at hget
          simp only [Prod.mk.injEq, Except.ok.injEq] at hget
          obtain ⟨hm, hh⟩ := hget
          rw [← hm]
          simp [lookAssoc_setAssoc, hh]

theorem get_preserves_root (m : Manager) (q : String) :
    ((m.get q).1).root = m.root := by
  unfold Manager.get
  cases hl : lookAssoc m.configs q with
  | some h0 => rfl
  | none => cases hs : subTree m.root q <;> rfl

theorem get_preserves_entry (m : Manager) (n q : String) (h : Handle)
    (hl : lookAssoc m.configs n = some h) :
    lookAssoc ((m.get q).1).configs n = some h := by
  unfold Manager.get
  cases hq : lookAssoc m.configs q with
  | some h0 => exact hl
  | none =>
      cases hs : subTree m.root q with
      | none => exact hl
      | some data =>
          have hnq : ¬ q = n := by
            intro he
            rw [he, hl] at hq
            exact Option.noConfusion hq
          simp [lookAssoc_setAssoc, hnq, hl]

theorem applyGets_preserves_entry (gets : List String) (m : Manager) (n : String) (h : Handle)
    (hl : lookAssoc m.configs n = some h) :
    lookAssoc ((applyGets m gets).configs) n = some h := by
  induction gets generalizing m with
  | nil => exact hl
  | cons q rest ih => exact ih _ (get_preserves_entry m n q h hl)

theorem applyGets_preserves_root (gets : List String) (m : Manager) :
    (applyGets m gets).root = m.root := by
  induction gets generalizing m with
  | nil => rfl
  | cons q rest ih => rw [applyGets, ih, get_preserves_root]

/-- Handles returned by `Get` carry an allocation stamp below the resulting
manager's `nextId`, and the bound is maintained for every cached handle: this
is what makes `h0.id < m.nextId` the right reading of "`h0` was returned by a
`Get` on this manager before now". -/
theorem get_ok_id_lt (m m' : Manager) (name : String) (h : Handle)
    (hwf : ∀ p ∈ m.configs, p.2.id < m.nextId)
    (hget : m.get name = (m', Except.ok h)) :
    h.id < m'.nextId ∧ ∀ p ∈ m'.configs, p.2.id < m'.nextId := by
  unfold Manager.get at hget
  cases hl : lookAssoc m.configs name with
  | some h0 =>
      rw [hl] at hget
      simp only [Prod.mk.injEq, Except.ok.injEq] at hget
      obtain ⟨hm, hh⟩ := hget
      subst hm
      constructor
      · exact hwf _ (lookAssoc_mem _ _ _ (hh ▸ hl))
      · exact hwf
  | none =>
      rw [hl] at hget
      cases hs : subTree m.root name with
      | none => rw [hs] at hget; simp at hget
      | some data =>
          rw [hs] at hget
          simp only [Prod.mk.injEq, Except.ok.injEq] at hget
          obtain ⟨hm, hh⟩ := hget
          subst hm
          constructor
          · rw [← hh]; exact Nat.lt_succ_self _
          · intro p hp
            rcases mem_setAssoc _ _ _ _ hp with h' | h'
            · exact Nat.lt_succ_of_lt (hwf _ h')
            · subst h'; exact Nat.lt_succ_self _

theorem reset_preserves_nextId (m : Manager) (fs : DirListing) :
    ((m.reset fs).1).nextId = m.nextId := by
  unfold Manager.reset
  cases hl : loadConfigs m.configDir fs <;> rfl

theorem newManager_fsA : newManager "conf" fsA = .ok mA := rfl

theorem mA_get_app : mA.get "app" = (mA1, Except.ok hApp) := rfl

/-! ### Claim theorems: Get / Reset behaviour -/

/-- C2: within one ConfigTree generation (no intervening `Reset`), every pair
of successful `Get (name)` calls on the same manager returns the identical
handle instance: the first successful call caches the handle it returns, and
after any further sequence of `Get` calls the next `Get (name)` returns
exactly the cached instance, leaving the manager unchanged. -/
theorem manager_get_cache_identity (m m1 : Manager) (name : String) (h : Handle)
    (hget : m.get name = (m1, Except.ok h)) (others : List String) :
    lookAssoc m1.configs name = some h ∧
    (applyGets m1 others).get name = (applyGets m1 others, Except.ok h) := by
  have hcached := get_ok_cached m m1 name h hget
  exact ⟨hcached, get_hit _ _ _ (applyGets_preserves_entry others m1 name h hcached)⟩

/-- Witness for C2 at a concrete manager: `Get "app"` twice, with a
`Get "database"` in between, returns the same handle instance. -/
theorem manager_get_cache_identity_witness :
    lookAssoc mA1.configs "app" = some hApp ∧
    (applyGets mA1 ["database"]).get "app" = (applyGets mA1 ["database"], Except.ok hApp) :=
  manager_get_cache_identity mA mA1 "app" hApp (by rfl) ["database"]

/-- C3: `Reset` is atomic with respect to failure: when reloading the
directory fails, the manager (tree and namespace cache included) is returned
exactly as it was; when it succeeds, the tree is replaced, the cache is
emptied, and a subsequent `Get` builds a fresh handle out of the reloaded
tree — never one of the handles allocated before the reset (those all carry
stamps below `m.nextId`, see `get_ok_id_lt`). -/
theorem manager_reset_atomic (m : Manager) (fs : DirListing) :
    (∀ e, loadConfigs m.configDir fs = Except.error e → m.reset fs = (m, some e)) ∧
    (∀ t, loadConfigs m.configDir fs = Except.ok t →
       m.reset fs = ({ m with root := t, configs := [] }, none) ∧
       (∀ name d, subTree t name = some d →
          ((m.reset fs).1.get name).2 = Except.ok { id := m.nextId, data := d } ∧
          (∀ h0 : Handle, h0.id < m.nextId →
             Except.ok h0 ≠ ((m.reset fs).1.get name).2))) := by
  constructor
  · intro e he
    unfold Manager.reset
    rw [he]
  · intro t ht
    have hres : m.reset fs = ({ m with root := t, configs := [] }, none) := by
      unfold Manager.reset
      rw [ht]
    refine ⟨hres, ?_⟩
    intro name d hd
    have hget : ((m.reset fs).1.get name).2 = Except.ok { id := m.nextId, data := d } := by
      rw [hres]
      simp [Manager.get, lookAssoc, hd]
    refine ⟨hget, ?_⟩
    intro h0 hid hcon
    rw [hget] at hcon
    have : h0 = { id := m.nextId, data := d } := by
      cases hcon
      rfl
    rw [this] at hid
    exact Nat.lt_irrefl _ hid

/-- Witness for C3 at a concrete manager: resetting `mA1` against the
changed directory `fsB` swaps in the new tree, clears the cache, and the
next `Get "app"` yields a handle with the reloaded content. -/
theorem manager_reset_atomic_witness :
    mA1.reset fsB = ({ mA1 with root := tB, configs := [] }, none) ∧
    ((mA1.reset fsB).1.get "app").2 =
      Except.ok { id := 1, data := [("name", YVal.scalar "v2")] } := by
  have hmain := (manager_reset_atomic mA1 fsB).2 tB (by rfl)
  exact ⟨hmain.1, (hmain.2 "app" [("name", YVal.scalar "v2")] (by rfl)).1⟩

theorem splitDots_no_dot (cs : List Char) (h : '.' ∉ cs) : splitDots cs = [cs] := by
  induction cs with
  | nil => rfl
  | cons c cs ih =>
      have hc : ¬ c = '.' := fun he => h (he ▸ List.mem_cons_self _ _)
      rw [splitDots, if_neg hc, ih (fun hm => h (List.mem_cons_of_mem _ hm))]

theorem pathSegs_simple (s : String) (h : '.' ∉ s.data) : pathSegs s = [s] := by
  unfold pathSegs
  rw [splitDots_no_dot s.data h]
  rfl

/-- A top-level key already in viper's normalized form (lowercase, no dot,
as `AllSettings` keys are) whose value is a mapping resolves to it. -/
theorem subTree_top (t : Tree) (name : String) (es : List (String × YVal))
    (hl : lookAssoc t name = some (YVal.map es)) (hlow : lowerKey name = name)
    (hdot : '.' ∉ name.data) :
    subTree t name = some es := by
  unfold subTree
  rw [hlow, pathSegs_simple name hdot]
  simp only [findPath]
  rw [hl]
  rfl

/-- C5 counterexample: viper's `Sub` lowercases the key and resolves
dot-delimited paths through nested mappings, so `Get` succeeds on names that
are not top-level keys of the tree: `"DATABASE"` (a case variant of the
namespace `database`) and `"ns.inner"` (a nested mapping) both return
handles, where the claim as stated demands a NotFound error. -/
theorem manager_notFound_counterexample :
    (isSet mA.root "DATABASE" = false ∧
      (mA.get "DATABASE").2 =
        Except.ok { id := 0, data := [("host", YVal.scalar "localhost")] }) ∧
    (isSet mN.root "ns.inner" = false ∧
      (mN.get "ns.inner").2 =
        Except.ok { id := 0, data := [("x", YVal.scalar "1")] }) := by
  exact ⟨⟨by decide, by rfl⟩, ⟨by decide, by rfl⟩⟩

/-- C5 (amended): for a cache-consistent manager, `Get (name)` returns the
NotFound error kind and leaves the manager untouched — and `MustGet` panics
with that same error — exactly when viper's resolution of `name`
(case-folded, dot-split, walked through nested mappings) yields no mapping
in the current tree; when it yields a mapping, `Get` returns a handle
holding it.  In particular every top-level key in normalized form
(lowercase, dot-free, as AllSettings produces) that was loaded as a subtree
still succeeds. -/
theorem manager_get_resolution_contract (m : Manager) (hc : CacheConsistent m) :
    (∀ name, subTree m.root name = none →
       m.get name = (m, Except.error (ConfigError.notFound name)) ∧
       IsNotFound (ConfigError.notFound name) = true ∧
       m.mustGet name = (m, MustResult.panicked (ConfigError.notFound name))) ∧
    (∀ name d, subTree m.root name = some d →
       ∃ h, (m.get name).2 = Except.ok h ∧ h.data = d) ∧
    (∀ name es, lookAssoc m.root name = some (YVal.map es) → lowerKey name = name →
       '.' ∉ name.data →
       ∃ h, (m.get name).2 = Except.ok h ∧ h.data = es) := by
  have hpos : ∀ name d, subTree m.root name = some d →
      ∃ h, (m.get name).2 = Except.ok h ∧ h.data = d := by
    intro name d hd
    cases hcf : lookAssoc m.configs name with
    | some h =>
        refine ⟨h, ?_, ?_⟩
        · rw [get_hit m name h hcf]
        · have := hc name h hcf
          rw [hd] at this
          cases this
          rfl
    | none =>
        refine ⟨{ id := m.nextId, data := d }, ?_, rfl⟩
        simp [Manager.get, hcf, hd]
  refine ⟨?_, hpos, ?_⟩
  · intro name hsub
    have hcfg : lookAssoc m.configs name = none := by
      cases hcf : lookAssoc m.configs name with
      | none => rfl
      | some h =>
          have := hc name h hcf
          rw [hsub] at this
          exact Option.noConfusion this
    have hget : m.get name = (m, Except.error (ConfigError.notFound name)) := by
      simp [Manager.get, hcfg, hsub]
    refine ⟨hget, rfl, ?_⟩
    unfold Manager.mustGet
    rw [hget]
  · intro name es hl hlow hdot
    exact hpos name es (subTree_top m.root name es hl hlow hdot)

/-- Witness for C5 (amended) at a concrete manager: `Get "zzz"` returns
NotFound with the state unchanged and `MustGet "zzz"` panics; the case
variant `"DATABASE"` resolves to the `database` mapping; the normalized
top-level key `"app"` succeeds with its subtree. -/
theorem manager_get_resolution_contract_witness :
    mA.get "zzz" = (mA, Except.error (ConfigError.notFound "zzz")) ∧
    mA.mustGet "zzz" = (mA, MustResult.panicked (ConfigError.notFound "zzz")) ∧
    (∃ h, (mA.get "DATABASE").2 = Except.ok h ∧
      h.data = [("host", YVal.scalar "localhost")]) ∧
    (∃ h, (mA.get "app").2 = Except.ok h ∧ h.data = [("name", YVal.scalar "drugo")]) := by
  have hmain := manager_get_resolution_contract mA
    (by intro n h hl; simp [mA, lookAssoc] at hl)
  exact ⟨(hmain.1 "zzz" (by rfl)).1, (hmain.1 "zzz" (by rfl)).2.2,
    hmain.2.1 "DATABASE" [("host", YVal.scalar "localhost")] (by rfl),
    hmain.2.2 "app" [("name", YVal.scalar "drugo")] (by rfl) (by decide) (by decide)⟩

/-! ### Claim C4: what `List` returns -/

/-- C4 counterexample: after constructing a manager over two namespaces and
accessing only `"app"` via `Get` (a strict subset of the tree's namespaces is
cached), `List` returns both names, not the cached subset the claim
predicts. -/
theorem manager_list_cached_counterexample :
    (applyGets mA ["app"]).configs.map Prod.fst = ["app"] ∧
    (applyGets mA ["app"]).list = ["app", "database"] ∧
    (applyGets mA ["app"]).list ≠ ["app"] := by
  refine ⟨rfl, by decide, by decide⟩

/-- C4 (amended): `List` returns every top-level namespace name present in
the current tree, lexicographically sorted, regardless of which namespaces
have been accessed via `Get`; the code has no separate `AllNames` method —
`List` itself provides the all-names behaviour. -/
theorem manager_list_all_names (m : Manager) (gets : List String) :
    (applyGets m gets).list = m.list ∧
    List.Sorted (· ≤ ·) m.list ∧
    (∀ k, k ∈ m.list ↔ isSet m.root k = true) := by
  refine ⟨?_, ?_, ?_⟩
  · unfold Manager.list
    rw [applyGets_preserves_root]
  · exact sortStrings_sorted _
  · intro k
    unfold Manager.list
    rw [(sortStrings_perm (m.root.map Prod.fst)).mem_iff]
    exact (isSet_iff_mem_keys m.root k).symm

/-! ### Claim C7: reload callback snapshot semantics -/

theorem foldl_runCallback (env : Nat → CbBehavior) (cbs : List Nat) (m : Manager)
    (log : List Nat) :
    cbs.foldl (runCallback env) (m, log) =
      ({ m with reloadCallbacks :=
           m.reloadCallbacks ++ (cbs.map (fun i => (env i).regs)).join },
       log ++ cbs) := by
  induction cbs generalizing m log with
  | nil => simp
  | cons i rest ih =>
      simp only [List.foldl_cons, runCallback]
      rw [ih]
      simp [List.append_assoc]

/-- C7: after a successful reload, `handleReload` invokes exactly the
callbacks registered at snapshot time, in registration order (the invocation
log equals the pre-reload callback list), independently of any errors the
callbacks return; the reload itself stands (new tree installed, cache
cleared); and callbacks registered during the pass are appended to the list
for the next pass but are not invoked in this one. -/
theorem manager_handleReload_snapshot (m : Manager) (env : Nat → CbBehavior)
    (fs : DirListing) (t : Tree) (hload : loadConfigs m.configDir fs = Except.ok t) :
    (m.handleReload env fs).2 = m.reloadCallbacks ∧
    (m.handleReload env fs).1.root = t ∧
    (m.handleReload env fs).1.configs = [] ∧
    (m.handleReload env fs).1.reloadCallbacks =
      m.reloadCallbacks ++ (m.reloadCallbacks.map (fun i => (env i).regs)).join := by
  have hreset : m.reset fs = ({ m with root := t, configs := [] }, none) := by
    unfold Manager.reset
    rw [hload]
  have hred : m.handleReload env fs =
      List.foldl (runCallback env) ({ m with root := t, configs := [] }, [])
        ({ m with root := t, configs := [] } : Manager).reloadCallbacks := by
    unfold Manager.handleReload
    rw [hreset]
  rw [hred, foldl_runCallback]
  simp

/-- Witness for C7 at a concrete manager: both registered callbacks run in
order (0 then 1) though callback 0 returns an error; callback 5, registered
by callback 0 during the pass, is appended but not invoked. -/
theorem manager_handleReload_snapshot_witness :
    (mC.handleReload envC fsB).2 = [0, 1] ∧
    (mC.handleReload envC fsB).1.root = tB ∧
    (mC.handleReload envC fsB).1.configs = [] ∧
    (mC.handleReload envC fsB).1.reloadCallbacks = [0, 1, 5] := by
  have hmain := manager_handleReload_snapshot mC envC fsB tB (by rfl)
  refine ⟨hmain.1, hmain.2.1, hmain.2.2.1, ?_⟩
  rw [hmain.2.2.2]
  rfl

/-! ### Claims C8 and C9: watch lifecycle -/

/-- C8: `Watch` while a watcher is attached returns success immediately and
changes nothing (no second observer, no second loop); and a second
`StopWatch` call is a no-op — `stopWatch` is idempotent, so any number of
calls after the first have no effect and cannot fault. -/
theorem manager_watch_stop_idempotent (m : Manager) :
    (∀ f a b w, m.watcher = some w → m.watch f a b = (m, true)) ∧
    m.stopWatch.stopWatch = m.stopWatch := by
  constructor
  · intro f a b w hw
    unfold Manager.watch
    rw [hw]
    simp
  · have hused : m.stopWatch.stopOnceUsed = true := by
      unfold Manager.stopWatch
      by_cases h1 : m.stopOnceUsed
      · simp [h1]
      · by_cases h2 : m.watcher.isSome <;> by_cases h3 : m.watcherDone <;>
          simp [h1, h2, h3]
    have hid : ∀ s : Manager, s.stopOnceUsed = true → s.stopWatch = s := by
      intro s hs
      unfold Manager.stopWatch
      simp [hs]
    exact hid _ hused

/-- Witness for C8 at a concrete watching manager. -/
theorem manager_watch_stop_idempotent_witness :
    mW.watch 3 true true = (mW, true) ∧ mW.stopWatch.stopWatch = mW.stopWatch :=
  ⟨(manager_watch_stop_idempotent mW).1 3 true true 7 (by rfl),
   (manager_watch_stop_idempotent mW).2⟩

theorem wstep_watcher_some (m : Manager) (op : WatchOp) (w : Nat)
    (hw : m.watcher = some w) : (wstep m op).watcher = some w := by
  cases op with
  | watchCall f a b =>
      unfold wstep Manager.watch
      simp [hw]
  | stopCall =>
      unfold wstep Manager.stopWatch
      by_cases h1 : m.stopOnceUsed
      · simp [h1, hw]
      · by_cases h3 : m.watcherDone <;> simp [h1, h3, hw]

theorem runOps_watcher_some (ops : List WatchOp) (m : Manager) (w : Nat)
    (hw : m.watcher = some w) : (runOps m ops).watcher = some w := by
  induction ops generalizing m with
  | nil => exact hw
  | cons op rest ih => exact ih _ (wstep_watcher_some m op w hw)

theorem attachCount_of_some (ops : List WatchOp) (m : Manager) (w : Nat)
    (hw : m.watcher = some w) : attachCount m ops = 0 := by
  induction ops generalizing m with
  | nil => rfl
  | cons op rest ih =>
      unfold attachCount
      have h0 := ih (wstep m op) (wstep_watcher_some m op w hw)
      simp [hw, h0]

theorem attachCount_le_one (ops : List WatchOp) (m : Manager) :
    attachCount m ops ≤ 1 := by
  induction ops generalizing m with
  | nil => exact Nat.zero_le 1
  | cons op rest ih =>
      unfold attachCount
      cases hq : m.watcher with
      | some w =>
          have h0 := attachCount_of_some rest (wstep m op) w (wstep_watcher_some m op w hq)
          simp [h0]
      | none =>
          cases hq' : (wstep m op).watcher with
          | some w' =>
              have h0 := attachCount_of_some rest (wstep m op) w' hq'
              simp [hq', h0]
          | none =>
              have h1 := ih (wstep m op)
              simp only [hq', Option.isNone_none, Bool.true_and, Option.isSome_none,
                Bool.false_eq_true, if_false, Nat.zero_add]
              exact h1

theorem wstep_after_stop (m : Manager) (op : WatchOp) (h : m.stopOnceUsed = true) :
    (wstep m op).stopOnceUsed = true ∧
    (wstep m op).watcherClosed = m.watcherClosed ∧
    (wstep m op).doneClosed = m.doneClosed := by
  cases op with
  | watchCall f a b =>
      unfold wstep Manager.watch
      by_cases h1 : m.watcher.isSome
      · simp [h1, h]
      · by_cases h2 : a = false
        · simp [h1, h2, h]
        · by_cases h3 : b = false <;> simp [h1, h2, h3, h]
  | stopCall =>
      unfold wstep Manager.stopWatch
      simp [h]

theorem runOps_after_stop (ops : List WatchOp) (m : Manager) (h : m.stopOnceUsed = true) :
    (runOps m ops).stopOnceUsed = true ∧
    (runOps m ops).watcherClosed = m.watcherClosed ∧
    (runOps m ops).doneClosed = m.doneClosed := by
  induction ops generalizing m with
  | nil => exact ⟨h, rfl, rfl⟩
  | cons op rest ih =>
      obtain ⟨h1, h2, h3⟩ := wstep_after_stop m op h
      obtain ⟨g1, g2, g3⟩ := ih (wstep m op) h1
      exact ⟨g1, g2.trans h2, g3.trans h3⟩

/-- C9 (implicit): the watch lifecycle is one-shot.  Over any trace of
`Watch`/`StopWatch` calls, a filesystem observer is attached at most once;
once the `watcher` field is non-nil it keeps the same observer forever
(`StopWatch` never resets it, so every later `Watch` is a success no-op);
once the stop-once ticket is consumed the closing actions can never run
again; and consequently a `StopWatch` issued before the first `Watch`
permanently disables closing any observer a later `Watch` attaches. -/
theorem manager_watch_lifecycle_once (m : Manager) (ops : List WatchOp) :
    attachCount m ops ≤ 1 ∧
    (∀ w, m.watcher = some w →
       (runOps m ops).watcher = some w ∧ attachCount m ops = 0) ∧
    (m.stopOnceUsed = true →
       (runOps m ops).watcherClosed = m.watcherClosed ∧
       (runOps m ops).doneClosed = m.doneClosed) ∧
    (m.watcher = none → m.stopOnceUsed = false → m.watcherClosed = false →
       (runOps m.stopWatch ops).watcherClosed = false) := by
  refine ⟨attachCount_le_one ops m, ?_, ?_, ?_⟩
  · intro w hw
    exact ⟨runOps_watcher_some ops m w hw, attachCount_of_some ops m w hw⟩
  · intro h
    exact ⟨(runOps_after_stop ops m h).2.1, (runOps_after_stop ops m h).2.2⟩
  · intro hw hused hclosed
    have hstop : m.stopWatch.stopOnceUsed = true ∧ m.stopWatch.watcherClosed = false := by
      unfold Manager.stopWatch
      rw [if_neg (by rw [hused]; exact Bool.false_ne_true)]
      rw [hw]
      by_cases h3 : m.watcherDone <;> simp [h3, hclosed]
    have := runOps_after_stop ops m.stopWatch hstop.1
    rw [this.2.1, hstop.2]

/-- Witness for C9 at a concrete trace: stop first, then watch, then stop
again — the observer attached by the later watch is never closed, and the
whole trace attaches at most one observer. -/
theorem manager_watch_lifecycle_once_witness :
    attachCount mA [WatchOp.stopCall, WatchOp.watchCall 1 true true, WatchOp.stopCall] ≤ 1 ∧
    (runOps mA.stopWatch [WatchOp.stopCall, WatchOp.watchCall 1 true true,
        WatchOp.stopCall]).watcherClosed = false := by
  refine ⟨(manager_watch_lifecycle_once mA _).1, ?_⟩
  exact (manager_watch_lifecycle_once mA _).2.2.2 (by rfl) (by rfl) (by rfl)

/-! ### Claim C10: container bind order -/

theorem containerInv_new {α : Type} : ContainerInv (newContainer : Container α) := by
  constructor
  · exact List.nodup_nil
  · intro n
    simp [newContainer, lookAssoc]

theorem bind_servicesIds {α : Type} (c : Container α) (hinv : ContainerInv c)
    (n : String) (s : α) :
    (c.bind n s).servicesIds =
      if n ∈ c.servicesIds then c.servicesIds else c.servicesIds ++ [n] := by
  unfold Container.bind
  by_cases hp : (lookAssoc c.services n).isSome = true
  · rw [if_pos ((hinv.2 n).mp hp)]
    simp [hp]
  · rw [if_neg (fun hm => hp ((hinv.2 n).mpr hm))]
    simp [hp]

theorem bind_inv {α : Type} (c : Container α) (hinv : ContainerInv c) (n : String) (s : α) :
    ContainerInv (c.bind n s) := by
  constructor
  · rw [bind_servicesIds c hinv n s]
    by_cases hm : n ∈ c.servicesIds
    · rw [if_pos hm]; exact hinv.1
    · rw [if_neg hm]
      simp [List.nodup_append, hinv.1, hm]
  · intro q
    have hserv : lookAssoc (c.bind n s).services q =
        if n = q then some s else lookAssoc c.services q := by
      unfold Container.bind
      exact lookAssoc_setAssoc c.services n q s
    rw [hserv, bind_servicesIds c hinv n s]
    by_cases hnq : n = q
    · subst hnq
      by_cases hm : n ∈ c.servicesIds <;> simp [hm]
    · rw [if_neg hnq]
      by_cases hm : n ∈ c.servicesIds
      · rw [if_pos hm]
        exact hinv.2 q
      · rw [if_neg hm]
        rw [hinv.2 q]
        constructor
        · intro h
          exact List.mem_append_left _ h
        · intro h
          rcases List.mem_append.mp h with h' | h'
          · exact h'
          · exact absurd (List.mem_singleton.mp h') (fun he => hnq he.symm)

theorem applyBinds_servicesIds {α : Type} (binds : List (String × α)) (c : Container α)
    (hinv : ContainerInv c) :
    (applyBinds c binds).servicesIds = firstOccsFrom c.servicesIds (binds.map Prod.fst) := by
  induction binds generalizing c with
  | nil => rfl
  | cons p rest ih =>
      obtain ⟨n, s⟩ := p
      rw [applyBinds, ih (c.bind n s) (bind_inv c hinv n s), bind_servicesIds c hinv n s]
      rfl

theorem applyBinds_lookup {α : Type} (binds : List (String × α)) (c : Container α)
    (q : String) :
    lookAssoc (applyBinds c binds).services q =
      (lastBound q binds).or (lookAssoc c.services q) := by
  induction binds generalizing c with
  | nil => simp [applyBinds, lastBound]
  | cons p rest ih =>
      obtain ⟨k, v⟩ := p
      rw [applyBinds, ih]
      have hserv : lookAssoc (c.bind k v).services q =
          if k = q then some v else lookAssoc c.services q := by
        unfold Container.bind
        exact lookAssoc_setAssoc c.services k q v
      rw [hserv]
      cases hlb : lastBound q rest with
      | some w => simp [lastBound, hlb]
      | none =>
          by_cases hk : k = q <;> simp [lastBound, hlb, hk]

theorem firstOccsFrom_nodup (l : List String) (acc : List String) (h : acc.Nodup) :
    (firstOccsFrom acc l).Nodup := by
  induction l generalizing acc with
  | nil => exact h
  | cons x xs ih =>
      rw [firstOccsFrom]
      by_cases hx : x ∈ acc
      · rw [if_pos hx]; exact ih _ h
      · rw [if_neg hx]
        exact ih _ (by simp [List.nodup_append, h, hx])

theorem mem_firstOccsFrom (l : List String) (acc : List String) (q : String) :
    q ∈ firstOccsFrom acc l ↔ q ∈ acc ∨ q ∈ l := by
  induction l generalizing acc with
  | nil => simp [firstOccsFrom]
  | cons x xs ih =>
      rw [firstOccsFrom]
      by_cases hx : x ∈ acc
      · rw [if_pos hx, ih]
        constructor
        · intro h
          rcases h with h | h
          · exact Or.inl h
          · exact Or.inr (List.mem_cons_of_mem _ h)
        · intro h
          rcases h with h | h
          · exact Or.inl h
          · rcases List.mem_cons.mp h with h' | h'
            · exact Or.inl (h' ▸ hx)
            · exact Or.inr h'
      · rw [if_neg hx, ih]
        simp [List.mem_append, List.mem_cons, or_assoc]

/-- C10 (implicit): the container preserves first-registration order under
rebinding.  After any sequence of `Bind` calls on a fresh container, `Names`
lists each bound name exactly once, in order of first binding; rebinding
replaces the stored instance without moving or duplicating the name; and
`Services` returns, in that same order, the last instance bound to each
name.  (That `Names`/`Services` hand out fresh slices, so that callers
cannot mutate container state, is Go aliasing behaviour outside this pure
model.) -/
theorem container_bind_order {α : Type} [Inhabited α] (binds : List (String × α)) :
    (applyBinds (newContainer : Container α) binds).names = firstOccs (binds.map Prod.fst) ∧
    (applyBinds (newContainer : Container α) binds).names.Nodup ∧
    (∀ n, n ∈ (applyBinds (newContainer : Container α) binds).names ↔
       n ∈ binds.map Prod.fst) ∧
    (applyBinds (newContainer : Container α) binds).servicesList =
      ((applyBinds (newContainer : Container α) binds).names).map
        (fun n => (lastBound n binds).getD default) := by
  have hids : (applyBinds (newContainer : Container α) binds).servicesIds =
      firstOccsFrom [] (binds.map Prod.fst) :=
    applyBinds_servicesIds binds newContainer containerInv_new
  refine ⟨hids, ?_, ?_, ?_⟩
  · rw [Container.names, hids]
    exact firstOccsFrom_nodup _ _ List.nodup_nil
  · intro n
    rw [Container.names, hids, mem_firstOccsFrom]
    simp
  · rw [Container.servicesList, Container.names]
    apply List.map_congr_left
    intro n _
    rw [applyBinds_lookup binds newContainer n]
    simp [newContainer, lookAssoc]

/-! ### Merge loader: per-file lemmas -/

theorem loadConfigs_entries (dir : String) (es : List DirEntry) :
    loadConfigs dir (.entries es) = loadEntries dir es [] := rfl

theorem isSet_false_iff (t : Tree) (k : String) :
    isSet t k = false ↔ lookAssoc t k = none := by
  unfold isSet
  cases h : lookAssoc t k <;> simp [h]

theorem mergeEntries_ok (path : String) (l : List (String × YVal)) (root : Tree)
    (hmaps : ∀ p ∈ l, (subVal p.2).isSome = true)
    (hfresh : ∀ p ∈ l, isSet root p.1 = false)
    (hnodup : (l.map Prod.fst).Nodup) :
    mergeEntries path l root = .ok (root ++ l) := by
  induction l generalizing root with
  | nil => simp [mergeEntries]
  | cons p rest ih =>
      obtain ⟨name, v⟩ := p
      have hset : isSet root name = false := hfresh _ (List.mem_cons_self _ _)
      have hsv : (subVal v).isSome = true := hmaps _ (List.mem_cons_self _ _)
      obtain ⟨es, hes⟩ := (subVal_isSome_iff v).mp hsv
      subst hes
      have hname : name ∉ rest.map Prod.fst := by
        have := hnodup
        simp only [List.map_cons, List.nodup_cons] at this
        exact this.1
      have hstep : mergeEntries path ((name, YVal.map es) :: rest) root =
          mergeEntries path rest (setAssoc root name (.map es)) := by
        simp [mergeEntries, hset, subVal]
      rw [hstep, setAssoc_of_lookAssoc_none root name _ ((isSet_false_iff root name).mp hset)]
      have hfresh' : ∀ p ∈ rest, isSet (root ++ [(name, YVal.map es)]) p.1 = false := by
        intro p hp
        rw [isSet_append]
        have h1 : isSet root p.1 = false := hfresh _ (List.mem_cons_of_mem _ hp)
        have h2 : isSet [(name, YVal.map es)] p.1 = false := by
          rw [isSet_false_iff, lookAssoc_eq_none_iff]
          intro hc
          simp only [List.map_cons, List.map_nil, List.mem_singleton] at hc
          exact hname (hc ▸ List.mem_map_of_mem Prod.fst hp)
        rw [h1, h2]
        rfl
      rw [ih _ (fun p hp => hmaps _ (List.mem_cons_of_mem _ hp)) hfresh'
        (by simpa using hnodup.of_cons)]
      simp

theorem mergeEntries_dup (path : String) (l : List (String × YVal)) (root : Tree)
    (hmaps : ∀ p ∈ l, (subVal p.2).isSome = true)
    (hnodup : (l.map Prod.fst).Nodup)
    (hdup : ∃ p ∈ l, isSet root p.1 = true) :
    ∃ k, mergeEntries path l root = .error (.duplicateKey k path) ∧
      k ∈ l.map Prod.fst ∧ isSet root k = true := by
  induction l generalizing root with
  | nil => simp at hdup
  | cons p rest ih =>
      obtain ⟨name, v⟩ := p
      by_cases hset : isSet root name = true
      · refine ⟨name, ?_, by simp, hset⟩
        simp [mergeEntries, hset]
      · have hsetf : isSet root name = false := by
          cases h : isSet root name
          · rfl
          · exact absurd h hset
        have hsv : (subVal v).isSome = true := hmaps _ (List.mem_cons_self _ _)
        obtain ⟨es, hes⟩ := (subVal_isSome_iff v).mp hsv
        subst hes
        have hname : name ∉ rest.map Prod.fst := by
          have := hnodup
          simp only [List.map_cons, List.nodup_cons] at this
          exact this.1
        have hstep : mergeEntries path ((name, YVal.map es) :: rest) root =
            mergeEntries path rest (setAssoc root name (.map es)) := by
          simp [mergeEntries, hsetf, subVal]
        rw [hstep,
          setAssoc_of_lookAssoc_none root name _ ((isSet_false_iff root name).mp hsetf)]
        have hdup' : ∃ p ∈ rest, isSet (root ++ [(name, YVal.map es)]) p.1 = true := by
          obtain ⟨p, hp, hps⟩ := hdup
          rcases List.mem_cons.mp hp with h' | h'
          · rw [h'] at hps
            exact absurd hps (by rw [hsetf]; exact Bool.false_ne_true)
          · exact ⟨p, h', by rw [isSet_append, hps]; rfl⟩
        obtain ⟨k, herr, hkmem, hkset⟩ := ih _
          (fun p hp => hmaps _ (List.mem_cons_of_mem _ hp))
          (by simpa using hnodup.of_cons) hdup'
        refine ⟨k, herr, List.mem_cons_of_mem _ hkmem, ?_⟩
        rw [isSet_append] at hkset
        cases hr : isSet root k
        · rw [hr] at hkset
          simp only [Bool.false_or] at hkset
          rw [isSet_iff_mem_keys] at hkset
          simp only [List.map_cons, List.map_nil, List.mem_singleton] at hkset
          exact absurd (hkset ▸ hkmem) hname
        · rfl

theorem mergeEntries_bad (path : String) (l : List (String × YVal)) (root : Tree)
    (hfresh : ∀ p ∈ l, isSet root p.1 = false)
    (hnodup : (l.map Prod.fst).Nodup)
    (hbad : ∃ p ∈ l, (subVal p.2).isSome = false) :
    ∃ msg, mergeEntries path l root = .error (.fileRead path msg) := by
  induction l generalizing root with
  | nil => simp at hbad
  | cons p rest ih =>
      obtain ⟨name, v⟩ := p
      have hset : isSet root name = false := hfresh _ (List.mem_cons_self _ _)
      cases hsv : subVal v with
      | none =>
          refine ⟨String.append "cannot read sub config " name, ?_⟩
          simp [mergeEntries, hset, hsv]
      | some es =>
          have hves : v = .map es := by
            cases v <;> simp [subVal] at hsv
            rw [hsv]
          subst hves
          have hname : name ∉ rest.map Prod.fst := by
            have := hnodup
            simp only [List.map_cons, List.nodup_cons] at this
            exact this.1
          have hstep : mergeEntries path ((name, YVal.map es) :: rest) root =
              mergeEntries path rest (setAssoc root name (.map es)) := by
            simp [mergeEntries, hset, subVal]
          rw [hstep,
            setAssoc_of_lookAssoc_none root name _ ((isSet_false_iff root name).mp hset)]
          have hbad' : ∃ p ∈ rest, (subVal p.2).isSome = false := by
            obtain ⟨p, hp, hps⟩ := hbad
            rcases List.mem_cons.mp hp with h' | h'
            · rw [h'] at hps
              simp [subVal] at hps
            · exact ⟨p, h', hps⟩
          have hfresh' : ∀ p ∈ rest, isSet (root ++ [(name, YVal.map es)]) p.1 = false := by
            intro p hp
            rw [isSet_append]
            have h1 : isSet root p.1 = false := hfresh _ (List.mem_cons_of_mem _ hp)
            have h2 : isSet [(name, YVal.map es)] p.1 = false := by
              rw [isSet_false_iff, lookAssoc_eq_none_iff]
              intro hc
              simp only [List.map_cons, List.map_nil, List.mem_singleton] at hc
              exact hname (hc ▸ List.mem_map_of_mem Prod.fst hp)
            rw [h1, h2]
            rfl
          exact ih _ hfresh' (by simpa using hnodup.of_cons) hbad'

/-! ### Merge loader: listing-level lemmas -/

theorem entriesOf_dir (e : DirEntry) (hd : e.isDir = true) : entriesOf e = [] := by
  simp [entriesOf, hd]

theorem entriesOf_nonyaml (e : DirEntry) (hy : isYamlName e.name = false) :
    entriesOf e = [] := by
  simp [entriesOf, hy]

theorem entriesOf_parsed (e : DirEntry) (l : List (String × YVal)) (hd : e.isDir = false)
    (hy : isYamlName e.name = true) (hc : e.content = .parsed l) : entriesOf e = l := by
  simp [entriesOf, hd, hy, hc]

theorem allDeclKeys_cons (e : DirEntry) (rest : List DirEntry) :
    allDeclKeys (e :: rest) = declKeys e ++ allDeclKeys rest := by
  simp [allDeclKeys]

theorem joinEntriesOf_cons (e : DirEntry) (rest : List DirEntry) :
    joinEntriesOf (e :: rest) = entriesOf e ++ joinEntriesOf rest := by
  simp [joinEntriesOf]

theorem loadEntries_cons_dir (dir : String) (e : DirEntry) (rest : List DirEntry)
    (root : Tree) (hd : e.isDir = true) :
    loadEntries dir (e :: rest) root = loadEntries dir rest root := by
  simp [loadEntries, hd]

theorem loadEntries_cons_nonyaml (dir : String) (e : DirEntry) (rest : List DirEntry)
    (root : Tree) (hd : e.isDir = false) (hy : isYamlName e.name = false) :
    loadEntries dir (e :: rest) root = loadEntries dir rest root := by
  simp [loadEntries, hd, hy]

theorem loadEntries_cons_file_ok (dir : String) (e : DirEntry) (rest : List DirEntry)
    (root root' : Tree) (hd : e.isDir = false) (hy : isYamlName e.name = true)
    (hm : mergeFile root (joinPath dir e.name) e.content = .ok root') :
    loadEntries dir (e :: rest) root = loadEntries dir rest root' := by
  simp [loadEntries, hd, hy, hm]

theorem loadEntries_cons_file_err (dir : String) (e : DirEntry) (rest : List DirEntry)
    (root : Tree) (err : ConfigError) (hd : e.isDir = false) (hy : isYamlName e.name = true)
    (hm : mergeFile root (joinPath dir e.name) e.content = .error err) :
    loadEntries dir (e :: rest) root = .error err := by
  simp [loadEntries, hd, hy, hm]

theorem declareCount_cons (e : DirEntry) (rest : List DirEntry) (k : String) :
    declareCount (e :: rest) k = (if k ∈ declKeys e then 1 else 0) + declareCount rest k := by
  unfold declareCount
  by_cases h : k ∈ declKeys e
  · simp only [List.filter_cons, decide_eq_true_eq, if_pos h, List.length_cons]
    omega
  · simp only [List.filter_cons, decide_eq_true_eq, if_neg h]
    omega

theorem declareCount_pos (es : List DirEntry) (k : String) (e : DirEntry)
    (he : e ∈ es) (hk : k ∈ declKeys e) : 1 ≤ declareCount es k := by
  unfold declareCount
  exact List.length_pos_of_mem (List.mem_filter.mpr ⟨he, by simp [hk]⟩)

theorem goodEntry_file (e : DirEntry) (l : List (String × YVal)) (hd : e.isDir = false)
    (hy : isYamlName e.name = true) (hc : e.content = .parsed l)
    (hg : goodEntry e = true) :
    (∀ p ∈ l, (subVal p.2).isSome = true) ∧ (l.map Prod.fst).Nodup := by
  unfold goodEntry at hg
  rw [hd, hy, hc] at hg
  simp only [Bool.false_or, Bool.not_true, goodFileContent, Bool.and_eq_true,
    List.all_eq_true, decide_eq_true_eq] at hg
  exact ⟨fun p hp => hg.1 p hp, hg.2⟩

theorem goodEntry_keys_nodup (e : DirEntry) (hg : goodEntry e = true) :
    (declKeys e).Nodup := by
  by_cases hd : e.isDir = true
  · simp [declKeys, entriesOf_dir e hd]
  · have hd' : e.isDir = false := by
      cases h : e.isDir
      · rfl
      · exact absurd h hd
    by_cases hy : isYamlName e.name = true
    · cases hc : e.content with
      | parseFailure msg =>
          unfold goodEntry at hg
          rw [hd', hy, hc] at hg
          simp [goodFileContent] at hg
      | parsed l =>
          rw [declKeys, entriesOf_parsed e l hd' hy hc]
          exact (goodEntry_file e l hd' hy hc hg).2
    · have hy' : isYamlName e.name = false := by
        cases h : isYamlName e.name
        · rfl
        · exact absurd h hy
      simp [declKeys, entriesOf_nonyaml e hy']

theorem mem_allDeclKeys (es : List DirEntry) (k : String) :
    k ∈ allDeclKeys es ↔ ∃ e ∈ es, k ∈ declKeys e := by
  unfold allDeclKeys
  rw [List.mem_join]
  constructor
  · rintro ⟨li, hli, hk⟩
    obtain ⟨e, he, rfl⟩ := List.mem_map.mp hli
    exact ⟨e, he, hk⟩
  · rintro ⟨e, he, hk⟩
    exact ⟨declKeys e, List.mem_map_of_mem _ he, hk⟩

theorem loadEntries_ok (dir : String) (es : List DirEntry) (root : Tree)
    (hgood : ∀ e ∈ es, goodEntry e = true)
    (hfresh : ∀ e ∈ es, ∀ k ∈ declKeys e, isSet root k = false)
    (hnodup : (allDeclKeys es).Nodup) :
    loadEntries dir es root = .ok (root ++ joinEntriesOf es) := by
  induction es generalizing root with
  | nil => simp [loadEntries, joinEntriesOf]
  | cons e rest ih =>
      have hgood' : ∀ e' ∈ rest, goodEntry e' = true :=
        fun e' he' => hgood e' (List.mem_cons_of_mem _ he')
      have hnodup' : (allDeclKeys rest).Nodup := by
        rw [allDeclKeys_cons] at hnodup
        exact (List.nodup_append.mp hnodup).2.1
      have hdisj : ∀ k ∈ declKeys e, k ∉ allDeclKeys rest := by
        rw [allDeclKeys_cons] at hnodup
        exact (List.nodup_append.mp hnodup).2.2
      by_cases hd : e.isDir = true
      · rw [loadEntries_cons_dir dir e rest root hd,
          ih root hgood' (fun e' he' => hfresh e' (List.mem_cons_of_mem _ he')) hnodup',
          joinEntriesOf_cons, entriesOf_dir e hd]
        rfl
      · have hd' : e.isDir = false := by
          cases h : e.isDir
          · rfl
          · exact absurd h hd
        by_cases hy : isYamlName e.name = true
        · cases hc : e.content with
          | parseFailure msg =>
              have := hgood e (List.mem_cons_self _ _)
              unfold goodEntry at this
              rw [hd', hy, hc] at this
              simp [goodFileContent] at this
          | parsed l =>
              obtain ⟨hmaps, hlnodup⟩ := goodEntry_file e l hd' hy hc
                (hgood e (List.mem_cons_self _ _))
              have hkeys : declKeys e = l.map Prod.fst := by
                rw [declKeys, entriesOf_parsed e l hd' hy hc]
              have hfreshl : ∀ p ∈ l, isSet root p.1 = false := fun p hp =>
                hfresh e (List.mem_cons_self _ _) _
                  (hkeys ▸ List.mem_map_of_mem Prod.fst hp)
              have hmerge : mergeFile root (joinPath dir e.name) e.content = .ok (root ++ l) := by
                rw [hc]
                exact mergeEntries_ok _ _ _ hmaps hfreshl hlnodup
              rw [loadEntries_cons_file_ok dir e rest root (root ++ l) hd' hy hmerge]
              have hfresh' : ∀ e' ∈ rest, ∀ k ∈ declKeys e', isSet (root ++ l) k = false := by
                intro e' he' k hk
                rw [isSet_append, hfresh e' (List.mem_cons_of_mem _ he') k hk]
                have hknotl : k ∉ l.map Prod.fst := by
                  intro hkl
                  exact hdisj k (hkeys ▸ hkl)
                    ((mem_allDeclKeys rest k).mpr ⟨e', he', hk⟩)
                rw [(isSet_false_iff l k).mpr ((lookAssoc_eq_none_iff l k).mpr hknotl)]
                rfl
              rw [ih (root ++ l) hgood' hfresh' hnodup',
                joinEntriesOf_cons, entriesOf_parsed e l hd' hy hc, List.append_assoc]
        · have hy' : isYamlName e.name = false := by
            cases h : isYamlName e.name
            · rfl
            · exact absurd h hy
          rw [loadEntries_cons_nonyaml dir e rest root hd' hy',
            ih root hgood' (fun e' he' => hfresh e' (List.mem_cons_of_mem _ he')) hnodup',
            joinEntriesOf_cons, entriesOf_nonyaml e hy']
          rfl

theorem loadEntries_dup (dir : String) (es : List DirEntry) (root : Tree)
    (hgood : ∀ e ∈ es, goodEntry e = true)
    (hex : ∃ k, 2 ≤ declareCount es k ∨ (isSet root k = true ∧ 1 ≤ declareCount es k)) :
    ∃ k p, loadEntries dir es root = .error (.duplicateKey k (joinPath dir p)) ∧
      (∃ e ∈ es, e.name = p ∧ k ∈ declKeys e) ∧
      (2 ≤ declareCount es k ∨ isSet root k = true) := by
  induction es generalizing root with
  | nil =>
      obtain ⟨k, hk⟩ := hex
      rcases hk with hk | ⟨_, hk⟩ <;> simp [declareCount] at hk
  | cons e rest ih =>
      have hgood' : ∀ e' ∈ rest, goodEntry e' = true :=
        fun e' he' => hgood e' (List.mem_cons_of_mem _ he')
      -- the two skip cases share this step
      have hskip : entriesOf e = [] →
          loadEntries dir (e :: rest) root = loadEntries dir rest root →
          ∃ k p, loadEntries dir (e :: rest) root =
              .error (.duplicateKey k (joinPath dir p)) ∧
            (∃ e' ∈ e :: rest, e'.name = p ∧ k ∈ declKeys e') ∧
            (2 ≤ declareCount (e :: rest) k ∨ isSet root k = true) := by
        intro hempty hstep
        have hkeys0 : declKeys e = [] := by rw [declKeys, hempty]; rfl
        have hcount : ∀ k, declareCount (e :: rest) k = declareCount rest k := by
          intro k
          rw [declareCount_cons, hkeys0]
          simp
        obtain ⟨k, hk⟩ := hex
        have hex' : ∃ k', 2 ≤ declareCount rest k' ∨
            (isSet root k' = true ∧ 1 ≤ declareCount rest k') := by
          refine ⟨k, ?_⟩
          rcases hk with hk | ⟨h1, h2⟩
          · left; rw [hcount k] at hk; exact hk
          · right; rw [hcount k] at h2; exact ⟨h1, h2⟩
        obtain ⟨k', p', herr', ⟨e', he', hn, hdk⟩, hlast'⟩ := ih root hgood' hex'
        refine ⟨k', p', by rw [hstep]; exact herr',
          ⟨e', List.mem_cons_of_mem _ he', hn, hdk⟩, ?_⟩
        rcases hlast' with h2 | hset'
        · left; rw [hcount k']; exact h2
        · right; exact hset'
      by_cases hd : e.isDir = true
      · exact hskip (entriesOf_dir e hd) (loadEntries_cons_dir dir e rest root hd)
      · have hd' : e.isDir = false := by
          cases h : e.isDir
          · rfl
          · exact absurd h hd
        by_cases hy : isYamlName e.name = true
        · cases hc : e.content with
          | parseFailure msg =>
              have := hgood e (List.mem_cons_self _ _)
              unfold goodEntry at this
              rw [hd', hy, hc] at this
              simp [goodFileContent] at this
          | parsed l =>
              obtain ⟨hmaps, hlnodup⟩ := goodEntry_file e l hd' hy hc
                (hgood e (List.mem_cons_self _ _))
              have hkeys : declKeys e = l.map Prod.fst := by
                rw [declKeys, entriesOf_parsed e l hd' hy hc]
              by_cases hroot : ∃ p_ ∈ l, isSet root p_.1 = true
              · obtain ⟨k0, herr, hk0l, hk0root⟩ :=
                  mergeEntries_dup (joinPath dir e.name) l root hmaps hlnodup hroot
                have hm : mergeFile root (joinPath dir e.name) e.content =
                    .error (.duplicateKey k0 (joinPath dir e.name)) := by
                  rw [hc]
                  exact herr
                refine ⟨k0, e.name,
                  loadEntries_cons_file_err dir e rest root _ hd' hy hm,
                  ⟨e, List.mem_cons_self _ _, rfl, hkeys ▸ hk0l⟩, Or.inr hk0root⟩
              · have hfreshl : ∀ p_ ∈ l, isSet root p_.1 = false := by
                  intro p hp
                  cases h : isSet root p.1
                  · rfl
                  · exact absurd ⟨p, hp, h⟩ hroot
                have hmerge : mergeFile root (joinPath dir e.name) e.content =
                    .ok (root ++ l) := by
                  rw [hc]
                  exact mergeEntries_ok _ _ _ hmaps hfreshl hlnodup
                have hstep := loadEntries_cons_file_ok dir e rest root (root ++ l) hd' hy hmerge
                obtain ⟨k, hk⟩ := hex
                have hex' : ∃ k', 2 ≤ declareCount rest k' ∨
                    (isSet (root ++ l) k' = true ∧ 1 ≤ declareCount rest k') := by
                  refine ⟨k, ?_⟩
                  rcases hk with hk | ⟨hkr, hkc⟩
                  · by_cases hke : k ∈ declKeys e
                    · right
                      refine ⟨?_, ?_⟩
                      · rw [isSet_append,
                          (isSet_iff_mem_keys l k).mpr (hkeys ▸ hke)]
                        simp
                      · rw [declareCount_cons, if_pos hke] at hk
                        omega
                    · left
                      rw [declareCount_cons, if_neg hke] at hk
                      omega
                  · by_cases hke : k ∈ declKeys e
                    · obtain ⟨p, hp, hpk⟩ := List.mem_map.mp (hkeys ▸ hke)
                      have := hfreshl p hp
                      rw [hpk] at this
                      rw [this] at hkr
                      exact absurd hkr Bool.false_ne_true
                    · right
                      refine ⟨?_, ?_⟩
                      · rw [isSet_append, hkr]
                        rfl
                      · rw [declareCount_cons, if_neg hke] at hkc
                        omega
                obtain ⟨k', p', herr', ⟨e', he', hn, hdk⟩, hlast'⟩ :=
                  ih (root ++ l) hgood' hex'
                refine ⟨k', p', by rw [hstep]; exact herr',
                  ⟨e', List.mem_cons_of_mem _ he', hn, hdk⟩, ?_⟩
                rcases hlast' with h2 | hset'
                · left
                  rw [declareCount_cons]
                  omega
                · rw [isSet_append] at hset'
                  cases hr : isSet root k'
                  · rw [hr] at hset'
                    simp only [Bool.false_or] at hset'
                    have hk'e : k' ∈ declKeys e :=
                      hkeys ▸ (isSet_iff_mem_keys l k').mp hset'
                    left
                    rw [declareCount_cons, if_pos hk'e]
                    have := declareCount_pos rest k' e' he' hdk
                    omega
                  · right
                    rfl
        · have hy' : isYamlName e.name = false := by
            cases h : isYamlName e.name
            · rfl
            · exact absurd h hy
          exact hskip (entriesOf_nonyaml e hy')
            (loadEntries_cons_nonyaml dir e rest root hd' hy')

theorem loadEntries_fileRead (dir : String) (es : List DirEntry) (root : Tree)
    (hfresh : ∀ e ∈ es, ∀ k ∈ declKeys e, isSet root k = false)
    (hnodup : (allDeclKeys es).Nodup)
    (hbad : ∃ e ∈ es, badYamlEntry e = true) :
    ∃ p msg, loadEntries dir es root = .error (.fileRead (joinPath dir p) msg) ∧
      ∃ e ∈ es, badYamlEntry e = true ∧ e.name = p := by
  induction es generalizing root with
  | nil => simp at hbad
  | cons e rest ih =>
      have hnodup' : (allDeclKeys rest).Nodup := by
        rw [allDeclKeys_cons] at hnodup
        exact (List.nodup_append.mp hnodup).2.1
      have hdisj : ∀ k ∈ declKeys e, k ∉ allDeclKeys rest := by
        rw [allDeclKeys_cons] at hnodup
        exact (List.nodup_append.mp hnodup).2.2
      have hskip : badYamlEntry e = false →
          loadEntries dir (e :: rest) root = loadEntries dir rest root →
          ∃ p msg, loadEntries dir (e :: rest) root =
              .error (.fileRead (joinPath dir p) msg) ∧
            ∃ e' ∈ e :: rest, badYamlEntry e' = true ∧ e'.name = p := by
        intro hnotbad hstep
        have hbad' : ∃ e' ∈ rest, badYamlEntry e' = true := by
          obtain ⟨e', he', hb⟩ := hbad
          rcases List.mem_cons.mp he' with h' | h'
          · rw [h'] at hb
            rw [hb] at hnotbad
            exact absurd hnotbad (by simp)
          · exact ⟨e', h', hb⟩
        obtain ⟨p, msg, herr, e', he', hb, hn⟩ :=
          ih root (fun e' he' => hfresh e' (List.mem_cons_of_mem _ he')) hnodup' hbad'
        exact ⟨p, msg, by rw [hstep]; exact herr,
          e', List.mem_cons_of_mem _ he', hb, hn⟩
      by_cases hd : e.isDir = true
      · exact hskip (by simp [badYamlEntry, hd])
          (loadEntries_cons_dir dir e rest root hd)
      · have hd' : e.isDir = false := by
          cases h : e.isDir
          · rfl
          · exact absurd h hd
        by_cases hy : isYamlName e.name = true
        · cases hc : e.content with
          | parseFailure msg =>
              refine ⟨e.name, msg,
                loadEntries_cons_file_err dir e rest root _ hd' hy (by rw [hc]; rfl),
                e, List.mem_cons_self _ _, ?_, rfl⟩
              simp [badYamlEntry, hd', hy, hc]
          | parsed l =>
              have hkeys : declKeys e = l.map Prod.fst := by
                rw [declKeys, entriesOf_parsed e l hd' hy hc]
              have hlnodup : (l.map Prod.fst).Nodup := by
                rw [allDeclKeys_cons] at hnodup
                exact hkeys ▸ (List.nodup_append.mp hnodup).1
              have hfreshl : ∀ p ∈ l, isSet root p.1 = false := fun p hp =>
                hfresh e (List.mem_cons_self _ _) _
                  (hkeys ▸ List.mem_map_of_mem Prod.fst hp)
              by_cases hsc : ∃ p_ ∈ l, (subVal p_.2).isSome = false
              · obtain ⟨msg, herr⟩ :=
                  mergeEntries_bad (joinPath dir e.name) l root hfreshl hlnodup hsc
                refine ⟨e.name, msg,
                  loadEntries_cons_file_err dir e rest root _ hd' hy (by rw [hc]; exact herr),
                  e, List.mem_cons_self _ _, ?_, rfl⟩
                obtain ⟨p_, hp_, hps⟩ := hsc
                simp only [badYamlEntry, hd', hy, hc, Bool.not_false, Bool.true_and,
                  List.any_eq_true]
                exact ⟨p_, hp_, by rw [hps]; rfl⟩
              · have hmaps : ∀ p ∈ l, (subVal p.2).isSome = true := by
                  intro p hp
                  cases h : (subVal p.2).isSome
                  · exact absurd ⟨p, hp, h⟩ hsc
                  · rfl
                have hmerge : mergeFile root (joinPath dir e.name) e.content =
                    .ok (root ++ l) := by
                  rw [hc]
                  exact mergeEntries_ok _ _ _ hmaps hfreshl hlnodup
                have hstep := loadEntries_cons_file_ok dir e rest root (root ++ l) hd' hy hmerge
                have hbad' : ∃ e' ∈ rest, badYamlEntry e' = true := by
                  obtain ⟨e', he', hb⟩ := hbad
                  rcases List.mem_cons.mp he' with h' | h'
                  · subst h'
                    simp only [badYamlEntry, hd', hy, hc, Bool.not_false, Bool.and_eq_true,
                      List.any_eq_true] at hb
                    obtain ⟨_, p_, hp_, hps⟩ := hb
                    have := hmaps p_ hp_
                    rw [this] at hps
                    simp at hps
                  · exact ⟨e', h', hb⟩
                have hfresh' : ∀ e' ∈ rest, ∀ k ∈ declKeys e', isSet (root ++ l) k = false := by
                  intro e' he' k hk
                  rw [isSet_append, hfresh e' (List.mem_cons_of_mem _ he') k hk]
                  have hknotl : k ∉ l.map Prod.fst := by
                    intro hkl
                    exact hdisj k (hkeys ▸ hkl)
                      ((mem_allDeclKeys rest k).mpr ⟨e', he', hk⟩)
                  rw [(isSet_false_iff l k).mpr ((lookAssoc_eq_none_iff l k).mpr hknotl)]
                  rfl
                obtain ⟨p, msg, herr, e', he', hb, hn⟩ := ih (root ++ l) hfresh' hnodup' hbad'
                exact ⟨p, msg, by rw [hstep]; exact herr,
                  e', List.mem_cons_of_mem _ he', hb, hn⟩
        · have hy' : isYamlName e.name = false := by
            cases h : isYamlName e.name
            · rfl
            · exact absurd h hy
          exact hskip (by simp [badYamlEntry, hy'])
            (loadEntries_cons_nonyaml dir e rest root hd' hy')

/-- When each file's own keys are distinct (YAML mappings), a non-nodup
concatenation of declared keys means some key is declared by two distinct
files. -/
theorem not_nodup_two_files (es : List DirEntry)
    (hgood : ∀ e ∈ es, goodEntry e = true)
    (hnd : ¬ (allDeclKeys es).Nodup) :
    ∃ k, 2 ≤ declareCount es k := by
  induction es with
  | nil => simp [allDeclKeys] at hnd
  | cons e rest ih =>
      rw [allDeclKeys_cons, List.nodup_append] at hnd
      have hA : (declKeys e).Nodup := goodEntry_keys_nodup e (hgood e (List.mem_cons_self _ _))
      by_cases hB : (allDeclKeys rest).Nodup
      · have hC : ¬ List.Disjoint (declKeys e) (allDeclKeys rest) := by
          intro hC
          exact hnd ⟨hA, hB, hC⟩
        obtain ⟨k, hk1, hk2⟩ : ∃ k, k ∈ declKeys e ∧ k ∈ allDeclKeys rest := by
          unfold List.Disjoint at hC
          push_neg at hC
          obtain ⟨k, hk1, hk2⟩ := hC
          exact ⟨k, hk1, hk2.1⟩
        obtain ⟨e', he', hk2'⟩ := (mem_allDeclKeys rest k).mp hk2
        have h1 := declareCount_pos rest k e' he' hk2'
        refine ⟨k, ?_⟩
        rw [declareCount_cons, if_pos hk1]
        omega
      · obtain ⟨k, hk⟩ := ih (fun e' he' => hgood e' (List.mem_cons_of_mem _ he')) hB
        refine ⟨k, ?_⟩
        rw [declareCount_cons]
        omega

/-- C1: over well-formed YAML files (each parses, every top-level value
materializes, keys inside one file are distinct — YAML mapping semantics),
`LoadAll` fails with a duplicate-key error exactly when some top-level key is
declared by two distinct files, for every enumeration order: pairwise
disjoint key sets yield a merged tree exposing precisely the declared keys,
while a key declared twice forces a `duplicateKey` error naming a
twice-declared key and a file that declares it. -/
theorem loadAll_duplicate_key_iff (dir : String) (es : List DirEntry)
    (hgood : ∀ e ∈ es, goodEntry e = true) :
    ((allDeclKeys es).Nodup →
       loadConfigs dir (.entries es) = .ok (joinEntriesOf es) ∧
       (∀ k, isSet (joinEntriesOf es) k = true ↔ ∃ e ∈ es, k ∈ declKeys e)) ∧
    (¬ (allDeclKeys es).Nodup → ∃ k, 2 ≤ declareCount es k) ∧
    (∀ k, 2 ≤ declareCount es k →
       ∃ k' p, loadConfigs dir (.entries es) =
           .error (.duplicateKey k' (joinPath dir p)) ∧
         2 ≤ declareCount es k' ∧ ∃ e ∈ es, e.name = p ∧ k' ∈ declKeys e) := by
  refine ⟨?_, not_nodup_two_files es hgood, ?_⟩
  · intro hnd
    have h := loadEntries_ok dir es [] hgood (fun e _ k _ => rfl) hnd
    constructor
    · rw [loadConfigs_entries, h]
      rfl
    · intro k
      rw [isSet_iff_mem_keys]
      have hmapjoin : (joinEntriesOf es).map Prod.fst = allDeclKeys es := by
        unfold joinEntriesOf allDeclKeys
        rw [List.map_join, List.map_map]
        rfl
      rw [hmapjoin]
      exact mem_allDeclKeys es k
  · intro k hk
    obtain ⟨k', p, herr, hwit, hlast⟩ :=
      loadEntries_dup dir es [] hgood ⟨k, Or.inl hk⟩
    refine ⟨k', p, ?_, ?_, hwit⟩
    · rw [loadConfigs_entries]
      exact herr
    · rcases hlast with h | h
      · exact h
      · exact absurd h Bool.false_ne_true

/-- Witness for C1 at concrete directories: two disjoint files load into the
merged tree; two files both declaring `app` fail with a duplicate-key error
naming the key and an offending file. -/
theorem loadAll_duplicate_key_iff_witness :
    loadConfigs "conf" (DirListing.entries esDisj) = .ok (joinEntriesOf esDisj) ∧
    (∃ k p, loadConfigs "conf" (DirListing.entries esDup) =
        .error (.duplicateKey k (joinPath "conf" p)) ∧
      2 ≤ declareCount esDup k ∧ ∃ e ∈ esDup, e.name = p ∧ k ∈ declKeys e) := by
  refine ⟨((loadAll_duplicate_key_iff "conf" esDisj (by decide)).1 (by decide)).1, ?_⟩
  exact (loadAll_duplicate_key_iff "conf" esDup (by decide)).2.2 "app" (by decide)

/-- C6: when the declared top-level keys collide nowhere (so the competing
duplicate-key failure mode is not in play) and some YAML entry is bad — it
fails to parse, or some top-level value cannot be materialized as a subtree —
`LoadAll` produces no merged tree and fails with an error of the FileRead
kind naming an offending file, a kind distinct from duplicate-key and
directory-read. -/
theorem loadAll_fileRead_kind (dir : String) (es : List DirEntry)
    (hnodup : (allDeclKeys es).Nodup)
    (hbad : ∃ e ∈ es, badYamlEntry e = true) :
    ∃ p msg, loadConfigs dir (.entries es) = .error (.fileRead (joinPath dir p) msg) ∧
      (∃ e ∈ es, badYamlEntry e = true ∧ e.name = p) ∧
      IsFileRead (.fileRead (joinPath dir p) msg) = true ∧
      IsDuplicateKey (.fileRead (joinPath dir p) msg) = false ∧
      IsDirRead (.fileRead (joinPath dir p) msg) = false := by
  obtain ⟨p, msg, herr, hwit⟩ :=
    loadEntries_fileRead dir es [] (fun _ _ _ _ => rfl) hnodup hbad
  refine ⟨p, msg, ?_, hwit, rfl, rfl, rfl⟩
  rw [loadConfigs_entries]
  exact herr

/-- Witness for C6 at a concrete directory: a well-formed file followed by a
file with a scalar top-level value fails with the FileRead kind, naming the
scalar-valued file. -/
theorem loadAll_fileRead_kind_witness :
    ∃ p msg, loadConfigs "conf" (DirListing.entries esBad) =
        .error (.fileRead (joinPath "conf" p) msg) ∧
      (∃ e ∈ esBad, badYamlEntry e = true ∧ e.name = p) ∧
      IsFileRead (.fileRead (joinPath "conf" p) msg) = true ∧
      IsDuplicateKey (.fileRead (joinPath "conf" p) msg) = false ∧
      IsDirRead (.fileRead (joinPath "conf" p) msg) = false :=
  loadAll_fileRead_kind "conf" esBad (by decide) (by decide)

end Drugo
